import Mathlib

/-!
Verification of the diff-to-dual-pane transformation of `txtl`
(`src/App.tsx`, the `diffContent` computation): the data model
(`DiffSpan`, `DiffLine`, `Content`), the newline-preserving split
`text.split(/(?<=\n)/)`, the lock-step `addLine` protocol, and the
`computeLineNumbers` finalization pass.

Texts are modelled as `List Char`.  The `uuid` fields of `DiffSpan` and
`DiffLine` are omitted: they are random identifiers used only as React
render keys and carry no semantic content.
-/

namespace Txtl

/-- The state of a styled text fragment (`DiffSpan.state` in the source). -/
inductive SpanState where
  | added
  | removed
  | unchanged
  | spacer
deriving DecidableEq, Repr

/-- `class DiffSpan`: an atomic styled text fragment. -/
structure DiffSpan where
  content : List Char
  state : SpanState
deriving DecidableEq, Repr

/-- `class DiffLine`: an ordered span container plus the numbering flag
`showNextLineNumber` and the finalization output `lineNumber`
(both `undefined`, i.e. `none`, until set). -/
structure DiffLine where
  spans : List DiffSpan
  showNextLineNumber : Option Bool
  lineNumber : Option Nat
deriving DecidableEq, Repr

/-- `new DiffLine()`: a fresh line with no spans and both optional fields unset. -/
def DiffLine.empty : DiffLine :=
  { spans := [], showNextLineNumber := none, lineNumber := none }

/-- `DiffLine.addSpan`: append a span. -/
def DiffLine.addSpan (l : DiffLine) (s : DiffSpan) : DiffLine :=
  { l with spans := l.spans ++ [s] }

/-- `class Content`: the per-side ordered line container. -/
structure Content where
  lines : List DiffLine
deriving DecidableEq, Repr

/-- `new Content()`: starts with exactly one empty line. -/
def Content.new : Content :=
  { lines := [DiffLine.empty] }

/-- Apply `f` to the last element of a list (models mutation of
`this.last()`, the current line). -/
def updateLast (f : DiffLine → DiffLine) : List DiffLine → List DiffLine
  | [] => []
  | [l] => [f l]
  | l :: l' :: ls => l :: updateLast f (l' :: ls)

/-- `content.last().addSpan(span)`: append a span to the current (last) line. -/
def Content.addSpanLast (c : Content) (s : DiffSpan) : Content :=
  { lines := updateLast (fun l => l.addSpan s) c.lines }

/-- `Content.addLine(showLineNumber)`: record `showNextLineNumber` on the
current line, append a spacer-newline span to it when the flag is false,
then push a brand-new empty line. -/
def Content.addLine (c : Content) (showLineNumber : Bool) : Content :=
  { lines :=
      updateLast (fun l =>
        let l := { l with showNextLineNumber := some showLineNumber }
        if showLineNumber then l
        else { l with spans := l.spans ++ [⟨['\n'], SpanState.spacer⟩] }) c.lines
      ++ [DiffLine.empty] }

/-- The loop body of `Content.computeLineNumbers`, threading the counter
`lineNumber` (starting at 1) and the carry `showNextLineNumber`
(starting at `true`) through the lines in order. -/
def numberLines : Nat → Bool → List DiffLine → List DiffLine
  | _, _, [] => []
  | n, carry, l :: ls =>
      (if carry then { l with lineNumber := some n } else l) ::
        numberLines (if carry then n + 1 else n) (l.showNextLineNumber.getD false) ls

/-- `Content.computeLineNumbers()`: the single forward finalization pass. -/
def Content.computeLineNumbers (c : Content) : Content :=
  { lines := numberLines 1 true c.lines }

/-- The diff operation tag: `0` = equal, `1` = insert, `-1` = delete
(the source's `else` branch; `diff_match_patch` emits only these three). -/
inductive Op where
  | equal
  | insert
  | delete
deriving DecidableEq, Repr

/-- `text.split(/(?<=\n)/)`: split keeping each newline attached to the
segment that precedes it.  The empty text yields `[""]`; a text ending in
a newline yields no trailing empty segment. -/
def splitKeep : List Char → List (List Char)
  | [] => [[]]
  | c :: rest =>
      if c = '\n' then
        ['\n'] :: (if rest = [] then [] else splitKeep rest)
      else
        match splitKeep rest with
        | [] => [[c]]
        | seg :: segs => (c :: seg) :: segs

/-- Lines 279-287 of `App.tsx`: append the segment's span to the
appropriate side(s) according to the operation. -/
def appendSpans (op : Op) (t : List Char) (s : Content × Content) : Content × Content :=
  match op with
  | Op.equal => (s.1.addSpanLast ⟨t, SpanState.unchanged⟩, s.2.addSpanLast ⟨t, SpanState.unchanged⟩)
  | Op.insert => (s.1, s.2.addSpanLast ⟨t, SpanState.added⟩)
  | Op.delete => (s.1.addSpanLast ⟨t, SpanState.removed⟩, s.2)

/-- Lines 290-299 of `App.tsx`: the synchronized line advance on a
newline-boundary crossing, with per-side `showLineNumber` arguments
determined by the operation. -/
def crossLine (op : Op) (s : Content × Content) : Content × Content :=
  match op with
  | Op.equal => (s.1.addLine true, s.2.addLine true)
  | Op.insert => (s.1.addLine false, s.2.addLine true)
  | Op.delete => (s.1.addLine true, s.2.addLine false)

/-- The body of the inner `lines.forEach` loop: process one segment
`spanText` of one operation. -/
def stepSeg (op : Op) (t : List Char) (s : Content × Content) : Content × Content :=
  let s := appendSpans op t s
  if t.getLast? = some '\n' then crossLine op s else s

/-- The body of the outer `diffs.map` loop: split one operation's text
and process each segment in order. -/
def stepOp (s : Content × Content) (d : Op × List Char) : Content × Content :=
  (splitKeep d.2).foldl (fun s t => stepSeg d.1 t s) s

/-- The streaming pass of `diffContent`: fold the operation sequence over
two fresh `Content` builders. -/
def processOps (ops : List (Op × List Char)) : Content × Content :=
  ops.foldl stepOp (Content.new, Content.new)

/-- The full pipeline of `diffContent`: streaming pass, then
`computeLineNumbers` on each side. -/
def buildPanes (ops : List (Op × List Char)) : Content × Content :=
  let s := processOps ops
  (s.1.computeLineNumbers, s.2.computeLineNumbers)

/-- The state after processing the first `n` operations in full and then
the first `m` segments of operation `n` (every intermediate point of the
streaming pass, in particular every newline-boundary crossing). -/
def buildUpTo (ops : List (Op × List Char)) (n m : Nat) : Content × Content :=
  let s := (ops.take n).foldl stepOp (Content.new, Content.new)
  match ops.drop n with
  | [] => s
  | d :: _ => ((splitKeep d.2).take m).foldl (fun s t => stepSeg d.1 t s) s

/-! ## Basic lemmas about the builder operations -/

theorem updateLast_length (f : DiffLine → DiffLine) :
    ∀ ls : List DiffLine, (updateLast f ls).length = ls.length
  | [] => rfl
  | [_] => rfl
  | _ :: l' :: ls => by
      simp only [updateLast, List.length_cons, updateLast_length f (l' :: ls)]

theorem addSpanLast_lines_length (c : Content) (s : DiffSpan) :
    (c.addSpanLast s).lines.length = c.lines.length :=
  updateLast_length _ _

theorem addLine_lines_length (c : Content) (b : Bool) :
    (c.addLine b).lines.length = c.lines.length + 1 := by
  simp [Content.addLine, updateLast_length]

theorem stepSeg_len_eq (op : Op) (t : List Char) {s : Content × Content}
    (h : s.1.lines.length = s.2.lines.length) :
    (stepSeg op t s).1.lines.length = (stepSeg op t s).2.lines.length := by
  cases op <;>
    simp only [stepSeg, appendSpans] <;>
    split <;>
    simp [crossLine, addLine_lines_length, addSpanLast_lines_length, h]

theorem foldlSeg_len_eq (op : Op) (segs : List (List Char)) :
    ∀ {s : Content × Content}, s.1.lines.length = s.2.lines.length →
      (segs.foldl (fun s t => stepSeg op t s) s).1.lines.length =
      (segs.foldl (fun s t => stepSeg op t s) s).2.lines.length := by
  induction segs with
  | nil => intro s h; exact h
  | cons t segs ih => intro s h; exact ih (stepSeg_len_eq op t h)

theorem stepOp_len_eq (d : Op × List Char) {s : Content × Content}
    (h : s.1.lines.length = s.2.lines.length) :
    (stepOp s d).1.lines.length = (stepOp s d).2.lines.length :=
  foldlSeg_len_eq d.1 (splitKeep d.2) h

theorem foldlOps_len_eq (ops : List (Op × List Char)) :
    ∀ {s : Content × Content}, s.1.lines.length = s.2.lines.length →
      (ops.foldl stepOp s).1.lines.length = (ops.foldl stepOp s).2.lines.length := by
  induction ops with
  | nil => intro s h; exact h
  | cons d ops ih => intro s h; exact ih (stepOp_len_eq d h)

/-- Claim C1: after processing any intermediate point of the operation
sequence — any number of whole operations followed by any number of
segments of the next operation, hence in particular after every
newline-boundary crossing — the left `Content`'s lines and the right
`Content`'s lines have equal length. -/
theorem length_sync_invariant (ops : List (Op × List Char)) (n m : Nat) :
    (buildUpTo ops n m).1.lines.length = (buildUpTo ops n m).2.lines.length := by
  have h0 : (Content.new, Content.new).1.lines.length =
      (Content.new, Content.new).2.lines.length := rfl
  have h1 := foldlOps_len_eq (ops.take n) h0
  unfold buildUpTo
  cases hd : ops.drop n with
  | nil => simpa [hd] using h1
  | cons d rest => simpa [hd] using foldlSeg_len_eq d.1 ((splitKeep d.2).take m) h1

/-! ## Nonemptiness of the line containers -/

theorem addSpanLast_ne_nil (c : Content) (s : DiffSpan) (h : c.lines ≠ []) :
    (c.addSpanLast s).lines ≠ [] := by
  rw [← List.length_pos] at h ⊢
  simpa [addSpanLast_lines_length] using h

theorem addLine_ne_nil (c : Content) (b : Bool) : (c.addLine b).lines ≠ [] := by
  simp [Content.addLine]

theorem stepSeg_ne_nil (op : Op) (t : List Char) {s : Content × Content}
    (h1 : s.1.lines ≠ []) (h2 : s.2.lines ≠ []) :
    (stepSeg op t s).1.lines ≠ [] ∧ (stepSeg op t s).2.lines ≠ [] := by
  cases op <;>
    simp only [stepSeg, appendSpans] <;>
    split <;>
    simp [crossLine, addLine_ne_nil, addSpanLast_ne_nil, h1, h2]

theorem foldlSeg_ne_nil (op : Op) (segs : List (List Char)) :
    ∀ {s : Content × Content}, s.1.lines ≠ [] → s.2.lines ≠ [] →
      (segs.foldl (fun s t => stepSeg op t s) s).1.lines ≠ [] ∧
      (segs.foldl (fun s t => stepSeg op t s) s).2.lines ≠ [] := by
  induction segs with
  | nil => intro s h1 h2; exact ⟨h1, h2⟩
  | cons t segs ih =>
      intro s h1 h2
      have h := stepSeg_ne_nil op t h1 h2
      exact ih h.1 h.2

theorem foldlOps_ne_nil (ops : List (Op × List Char)) :
    ∀ {s : Content × Content}, s.1.lines ≠ [] → s.2.lines ≠ [] →
      (ops.foldl stepOp s).1.lines ≠ [] ∧ (ops.foldl stepOp s).2.lines ≠ [] := by
  induction ops with
  | nil => intro s h1 h2; exact ⟨h1, h2⟩
  | cons d ops ih =>
      intro s h1 h2
      have h := foldlSeg_ne_nil d.1 (splitKeep d.2) h1 h2
      exact ih h.1 h.2

theorem processOps_ne_nil (ops : List (Op × List Char)) :
    (processOps ops).1.lines ≠ [] ∧ (processOps ops).2.lines ≠ [] :=
  foldlOps_ne_nil ops (by simp [Content.new]) (by simp [Content.new])

theorem numberLines_head_one {ls : List DiffLine} (h : ls ≠ []) :
    ((numberLines 1 true ls).map (fun l => l.lineNumber)).head? = some (some 1) := by
  cases ls with
  | nil => exact absurd rfl h
  | cons l ls => simp [numberLines]

/-- Claim C10: after finalization the first line of each `Content` is
always assigned line number 1, even when it is a filler line, because a
`Content` starts with one line and the finalization carry starts true. -/
theorem first_line_always_numbered_one (ops : List (Op × List Char)) :
    ((buildPanes ops).1.lines.map (fun l => l.lineNumber)).head? = some (some 1) ∧
    ((buildPanes ops).2.lines.map (fun l => l.lineNumber)).head? = some (some 1) := by
  have h := processOps_ne_nil ops
  exact ⟨numberLines_head_one h.1, numberLines_head_one h.2⟩

/-! ## Properties of the newline-preserving split -/

theorem splitKeep_ne_nil : ∀ t : List Char, splitKeep t ≠ []
  | [] => by simp [splitKeep]
  | c :: rest => by
      simp only [splitKeep]
      split
      · simp
      · split <;> simp

theorem splitKeep_join : ∀ t : List Char, (splitKeep t).flatten = t
  | [] => by simp [splitKeep]
  | c :: rest => by
      have ih := splitKeep_join rest
      simp only [splitKeep]
      split
      · subst c
        by_cases hr : rest = []
        · simp [hr]
        · simp [hr, ih]
      · cases hsk : splitKeep rest with
        | nil => exact absurd hsk (splitKeep_ne_nil rest)
        | cons seg segs =>
            rw [hsk] at ih
            simp only [List.flatten_cons] at ih ⊢
            simp [List.cons_append, ih]

theorem splitKeep_no_inner_newline :
    ∀ t : List Char, ∀ seg ∈ splitKeep t, ∀ c ∈ seg.dropLast, c ≠ '\n'
  | [] => by simp [splitKeep]
  | c :: rest => by
      have ih := splitKeep_no_inner_newline rest
      simp only [splitKeep]
      split
      · intro seg hseg
        by_cases hr : rest = []
        · simp [hr] at hseg
          simp [hseg]
        · simp [hr] at hseg
          rcases hseg with h | h
          · simp [h]
          · exact ih seg h
      · cases hsk : splitKeep rest with
        | nil => exact absurd hsk (splitKeep_ne_nil rest)
        | cons seg0 segs =>
            intro seg hseg x hx
            simp only [List.mem_cons] at hseg
            rcases hseg with h | h
            · subst h
              cases seg0 with
              | nil => simp at hx
              | cons d ds =>
                  rw [List.dropLast_cons₂] at hx
                  rcases List.mem_cons.1 hx with h | h
                  · subst h; assumption
                  · exact ih (d :: ds) (by simp [hsk]) x h
            · exact ih seg (by simp [hsk, h]) x hx

theorem getLast?_cons_ne_nil {α : Type} (a : α) {l : List α} (h : l ≠ []) :
    (a :: l).getLast? = l.getLast? := by
  cases l with
  | nil => exact absurd rfl h
  | cons b l => exact List.getLast?_cons_cons

theorem splitKeep_getLast :
    ∀ t : List Char, t ≠ [] →
      ∃ seg, (splitKeep t).getLast? = some seg ∧ seg ≠ [] ∧ seg.getLast? = t.getLast?
  | [], h => absurd rfl h
  | c :: rest, _ => by
      by_cases hr : rest = []
      · subst hr
        by_cases hc : c = '\n'
        · subst hc
          exact ⟨['\n'], by simp [splitKeep], by simp, by simp⟩
        · exact ⟨[c], by simp [splitKeep, hc], by simp, by simp⟩
      · obtain ⟨seg, hlast, hne, hch⟩ := splitKeep_getLast rest hr
        have htl : (c :: rest).getLast? = rest.getLast? := getLast?_cons_ne_nil c hr
        by_cases hc : c = '\n'
        · subst hc
          have hsplit : splitKeep ('\n' :: rest) = ['\n'] :: splitKeep rest := by
            simp [splitKeep, hr]
          refine ⟨seg, ?_, hne, by rw [hch, htl]⟩
          rw [hsplit, getLast?_cons_ne_nil _ (splitKeep_ne_nil rest), hlast]
        · cases hsk : splitKeep rest with
          | nil => exact absurd hsk (splitKeep_ne_nil rest)
          | cons s0 segs =>
              have hsplit : splitKeep (c :: rest) = (c :: s0) :: segs := by
                simp [splitKeep, hc, hsk]
              cases segs with
              | nil =>
                  rw [hsk] at hlast
                  simp only [List.getLast?_singleton, Option.some.injEq] at hlast
                  subst hlast
                  refine ⟨c :: s0, by rw [hsplit]; simp, by simp, ?_⟩
                  rw [getLast?_cons_ne_nil c hne, hch, htl]
              | cons s1 segs' =>
                  refine ⟨seg, ?_, hne, by rw [hch, htl]⟩
                  rw [hsplit, List.getLast?_cons_cons]
                  rw [hsk] at hlast
                  rwa [List.getLast?_cons_cons] at hlast

/-- Claim C5: for non-empty text, the splitting step partitions the text
into segments whose concatenation equals the text, every newline sits
only at the end of its segment, and the last segment ends in a newline
iff the text does. -/
theorem split_partitions (t : List Char) (h : t ≠ []) :
    (splitKeep t).flatten = t ∧
    (∀ seg ∈ splitKeep t, ∀ c ∈ seg.dropLast, c ≠ '\n') ∧
    (∀ seg, (splitKeep t).getLast? = some seg →
      (seg.getLast? = some '\n' ↔ t.getLast? = some '\n')) := by
  refine ⟨splitKeep_join t, splitKeep_no_inner_newline t, ?_⟩
  intro seg hseg
  obtain ⟨seg', hl, _, hch⟩ := splitKeep_getLast t h
  rw [hseg, Option.some.injEq] at hl
  rw [← hl] at hch
  rw [hch]

/-- Witness for C5 at the concrete text `"a\n"`. -/
theorem split_partitions_witness :
    (splitKeep ['a', '\n']).flatten = ['a', '\n'] ∧
    (∀ seg ∈ splitKeep ['a', '\n'], ∀ c ∈ seg.dropLast, c ≠ '\n') ∧
    (∀ seg, (splitKeep ['a', '\n']).getLast? = some seg →
      (seg.getLast? = some '\n' ↔ (['a', '\n'] : List Char).getLast? = some '\n')) :=
  split_partitions ['a', '\n'] (by decide)

/-! ## Characterization of the finalization pass -/

/-- The carry value active when the finalization pass reaches position
`i`, starting from `carry`: position 0 sees the initial carry, and each
line hands its own `showNextLineNumber` (treated as `false` when unset)
to the next position. -/
def carryAtAux : Bool → List DiffLine → Nat → Bool
  | carry, _, 0 => carry
  | _, [], _ + 1 => false
  | _, l :: ls, i + 1 => carryAtAux (l.showNextLineNumber.getD false) ls i

/-- How many lines before position `i` are assigned a number by the
finalization pass started with carry `carry`. -/
def countAssigned : Bool → List DiffLine → Nat → Nat
  | _, _, 0 => 0
  | _, [], _ + 1 => 0
  | carry, l :: ls, i + 1 =>
      (if carry then 1 else 0) + countAssigned (l.showNextLineNumber.getD false) ls i

theorem numberLines_getElem? :
    ∀ (ls : List DiffLine) (n : Nat) (carry : Bool) (i : Nat),
      (numberLines n carry ls)[i]? =
        (ls[i]?).map (fun l =>
          if carryAtAux carry ls i then
            { l with lineNumber := some (n + countAssigned carry ls i) }
          else l) := by
  intro ls
  induction ls with
  | nil => intro n carry i; simp [numberLines]
  | cons l ls ih =>
      intro n carry i
      cases i with
      | zero => simp [numberLines, carryAtAux, countAssigned]
      | succ i =>
          simp only [numberLines, List.getElem?_cons_succ, ih, carryAtAux, countAssigned]
          cases carry <;> simp [Nat.add_assoc]

/-- Claim C3: `computeLineNumbers` is the single forward pass with counter
starting at 1 and carry starting at `true`: position `i` is assigned the
number `1 + (lines assigned before i)` exactly when the carry reaching it
(each line's own `showNextLineNumber`, unset treated as `false`) is true,
and is left untouched otherwise — in particular the trailing line, whose
flag `addLine` never set, is numbered exactly when the carry reaching it
is true. -/
theorem computeLineNumbers_characterization (c : Content) (i : Nat) :
    (c.computeLineNumbers).lines[i]? =
      (c.lines[i]?).map (fun l =>
        if carryAtAux true c.lines i then
          { l with lineNumber := some (1 + countAssigned true c.lines i) }
        else l) :=
  numberLines_getElem? c.lines 1 true i

/-! ## Characterization of `addLine` and the per-segment step -/

theorem updateLast_append (f : DiffLine → DiffLine) :
    ∀ (pre : List DiffLine) (l : DiffLine), updateLast f (pre ++ [l]) = pre ++ [f l]
  | [], _ => rfl
  | p :: pre, l => by
      cases h : pre ++ [l] with
      | nil => exact absurd h (by simp)
      | cons x xs =>
          simp only [List.cons_append, h, updateLast]
          rw [← h, updateLast_append f pre l]

theorem addLine_lines_eq (b : Bool) (c : Content) (pre : List DiffLine) (l : DiffLine)
    (h : c.lines = pre ++ [l]) :
    (c.addLine b).lines =
      pre ++ [{ l with showNextLineNumber := some b,
                       spans := l.spans ++
                         (if b then [] else [⟨['\n'], SpanState.spacer⟩]) },
              DiffLine.empty] := by
  simp only [Content.addLine, h, updateLast_append]
  cases b <;> simp

/-- Claim C4: `addLine` records the flag on the current (last) line,
appends exactly one spacer span containing a single newline to it when the
flag is false (and leaves its spans unchanged when the flag is true), and
pushes a brand-new empty line which becomes the new current line. -/
theorem addLine_spec (b : Bool) (c : Content) (pre : List DiffLine) (l : DiffLine)
    (h : c.lines = pre ++ [l]) :
    (c.addLine b).lines =
      pre ++ [{ l with showNextLineNumber := some b,
                       spans := l.spans ++
                         (if b then [] else [⟨['\n'], SpanState.spacer⟩]) },
              DiffLine.empty] :=
  addLine_lines_eq b c pre l h

/-- Witness for C4 at the fresh `Content` and flag `false`. -/
theorem addLine_spec_witness :
    (Content.new.addLine false).lines =
      [] ++ [{ DiffLine.empty with showNextLineNumber := some false,
                                   spans := DiffLine.empty.spans ++
                                     (if false then []
                                      else [⟨['\n'], SpanState.spacer⟩]) },
             DiffLine.empty] :=
  addLine_spec false Content.new [] DiffLine.empty rfl

theorem map_showNext_updateLast_addSpan (sp : DiffSpan) :
    ∀ ls : List DiffLine,
      (updateLast (fun l => l.addSpan sp) ls).map (fun l => l.showNextLineNumber) =
        ls.map (fun l => l.showNextLineNumber)
  | [] => rfl
  | [_] => rfl
  | _ :: l' :: ls => by
      simp only [updateLast, List.map_cons, map_showNext_updateLast_addSpan sp (l' :: ls)]

theorem map_showNext_addSpanLast (c : Content) (sp : DiffSpan) :
    (c.addSpanLast sp).lines.map (fun l => l.showNextLineNumber) =
      c.lines.map (fun l => l.showNextLineNumber) :=
  map_showNext_updateLast_addSpan sp c.lines

theorem dropLast_updateLast (f : DiffLine → DiffLine) :
    ∀ ls : List DiffLine, (updateLast f ls).dropLast = ls.dropLast
  | [] => rfl
  | [_] => rfl
  | l :: l' :: ls => by
      have ih := dropLast_updateLast f (l' :: ls)
      show (l :: updateLast f (l' :: ls)).dropLast = (l :: l' :: ls).dropLast
      cases hu : updateLast f (l' :: ls) with
      | nil =>
          have hlen : (updateLast f (l' :: ls)).length = (l' :: ls).length :=
            updateLast_length f (l' :: ls)
          rw [hu] at hlen
          simp at hlen
      | cons x xs =>
          rw [List.dropLast_cons₂, List.dropLast_cons₂, ← hu, ih]

theorem map_showNext_addLine (c : Content) (b : Bool) (h : c.lines ≠ []) :
    (c.addLine b).lines.map (fun l => l.showNextLineNumber) =
      c.lines.dropLast.map (fun l => l.showNextLineNumber) ++ [some b, none] := by
  rcases List.eq_nil_or_concat c.lines with hnil | ⟨pre, l, hp⟩
  · exact absurd hnil h
  · rw [List.concat_eq_append] at hp
    rw [addLine_lines_eq b c pre l hp, hp]
    simp [DiffLine.empty]

theorem dropLast_addSpanLast (c : Content) (sp : DiffSpan) :
    (c.addSpanLast sp).lines.dropLast = c.lines.dropLast :=
  dropLast_updateLast _ c.lines

theorem stepSeg_of_newline (op : Op) (t : List Char) (s : Content × Content)
    (ht : t.getLast? = some '\n') :
    stepSeg op t s = crossLine op (appendSpans op t s) := by
  simp [stepSeg, ht]

theorem stepSeg_of_not_newline (op : Op) (t : List Char) (s : Content × Content)
    (ht : t.getLast? ≠ some '\n') :
    stepSeg op t s = appendSpans op t s := by
  simp [stepSeg, ht]

theorem map_showNext_addSpanLast_addLine (c : Content) (sp : DiffSpan) (b : Bool)
    (h : c.lines ≠ []) :
    ((c.addSpanLast sp).addLine b).lines.map (fun l => l.showNextLineNumber) =
      c.lines.dropLast.map (fun l => l.showNextLineNumber) ++ [some b, none] := by
  rw [map_showNext_addLine _ b (addSpanLast_ne_nil c sp h), dropLast_addSpanLast]

/-- Claim C2: when a segment ends with a newline, `addLine` fires on both
sides in the same step — each side gains exactly one line whose
predecessor records the per-operation flag (`equal`: true/true; `insert`:
false on the left, true on the right; `delete`: true on the left, false
on the right) — and when the segment does not end with a newline, no
`addLine` fires: no line is added and no flag is recorded on either side. -/
theorem boundary_crossing_spec (op : Op) (t : List Char) (s : Content × Content)
    (h1 : s.1.lines ≠ []) (h2 : s.2.lines ≠ []) :
    (t.getLast? = some '\n' →
      ((stepSeg op t s).1.lines.map (fun l => l.showNextLineNumber) =
        s.1.lines.dropLast.map (fun l => l.showNextLineNumber) ++
          [some (match op with | Op.insert => false | _ => true), none]) ∧
      ((stepSeg op t s).2.lines.map (fun l => l.showNextLineNumber) =
        s.2.lines.dropLast.map (fun l => l.showNextLineNumber) ++
          [some (match op with | Op.delete => false | _ => true), none])) ∧
    (t.getLast? ≠ some '\n' →
      ((stepSeg op t s).1.lines.map (fun l => l.showNextLineNumber) =
        s.1.lines.map (fun l => l.showNextLineNumber)) ∧
      ((stepSeg op t s).2.lines.map (fun l => l.showNextLineNumber) =
        s.2.lines.map (fun l => l.showNextLineNumber))) := by
  constructor
  · intro ht
    rw [stepSeg_of_newline op t s ht]
    cases op
    · exact ⟨map_showNext_addSpanLast_addLine s.1 _ true h1,
        map_showNext_addSpanLast_addLine s.2 _ true h2⟩
    · exact ⟨map_showNext_addLine s.1 false h1,
        map_showNext_addSpanLast_addLine s.2 _ true h2⟩
    · exact ⟨map_showNext_addSpanLast_addLine s.1 _ true h1,
        map_showNext_addLine s.2 false h2⟩
  · intro ht
    rw [stepSeg_of_not_newline op t s ht]
    cases op
    · exact ⟨map_showNext_addSpanLast s.1 _, map_showNext_addSpanLast s.2 _⟩
    · exact ⟨rfl, map_showNext_addSpanLast s.2 _⟩
    · exact ⟨map_showNext_addSpanLast s.1 _, rfl⟩

/-- Witness for C2 at the equal operation, segment `"\n"`, fresh state. -/
theorem boundary_crossing_spec_witness :
    ((['\n'] : List Char).getLast? = some '\n' →
      ((stepSeg Op.equal ['\n'] (Content.new, Content.new)).1.lines.map
          (fun l => l.showNextLineNumber) =
        (Content.new, Content.new).1.lines.dropLast.map (fun l => l.showNextLineNumber) ++
          [some (match Op.equal with | Op.insert => false | _ => true), none]) ∧
      ((stepSeg Op.equal ['\n'] (Content.new, Content.new)).2.lines.map
          (fun l => l.showNextLineNumber) =
        (Content.new, Content.new).2.lines.dropLast.map (fun l => l.showNextLineNumber) ++
          [some (match Op.equal with | Op.delete => false | _ => true), none])) ∧
    ((['\n'] : List Char).getLast? ≠ some '\n' →
      ((stepSeg Op.equal ['\n'] (Content.new, Content.new)).1.lines.map
          (fun l => l.showNextLineNumber) =
        (Content.new, Content.new).1.lines.map (fun l => l.showNextLineNumber)) ∧
      ((stepSeg Op.equal ['\n'] (Content.new, Content.new)).2.lines.map
          (fun l => l.showNextLineNumber) =
        (Content.new, Content.new).2.lines.map (fun l => l.showNextLineNumber))) :=
  boundary_crossing_spec Op.equal ['\n'] (Content.new, Content.new) (by decide) (by decide)

/-- Claim C6: the span-append step touches only the operation's own
side(s): `equal` appends an unchanged span to the current line of both
sides, `insert` appends an added span to the right current line and
leaves the left `Content` entirely unchanged, `delete` appends a removed
span to the left current line and leaves the right `Content` entirely
unchanged; in all cases every other line is untouched. -/
theorem appendSpans_frame (op : Op) (t : List Char) (l r : Content)
    (pre1 : List DiffLine) (last1 : DiffLine) (pre2 : List DiffLine) (last2 : DiffLine)
    (h1 : l.lines = pre1 ++ [last1]) (h2 : r.lines = pre2 ++ [last2]) :
    match op with
    | Op.equal =>
        (appendSpans op t (l, r)).1.lines =
          pre1 ++ [{ last1 with spans := last1.spans ++ [⟨t, SpanState.unchanged⟩] }] ∧
        (appendSpans op t (l, r)).2.lines =
          pre2 ++ [{ last2 with spans := last2.spans ++ [⟨t, SpanState.unchanged⟩] }]
    | Op.insert =>
        (appendSpans op t (l, r)).1 = l ∧
        (appendSpans op t (l, r)).2.lines =
          pre2 ++ [{ last2 with spans := last2.spans ++ [⟨t, SpanState.added⟩] }]
    | Op.delete =>
        (appendSpans op t (l, r)).1.lines =
          pre1 ++ [{ last1 with spans := last1.spans ++ [⟨t, SpanState.removed⟩] }] ∧
        (appendSpans op t (l, r)).2 = r := by
  cases op <;>
    simp [appendSpans, Content.addSpanLast, h1, h2, updateLast_append, DiffLine.addSpan]

/-- Witness for C6 at the insert operation on fresh contents. -/
theorem appendSpans_frame_witness :
    (appendSpans Op.insert ['a'] (Content.new, Content.new)).1 = Content.new ∧
    (appendSpans Op.insert ['a'] (Content.new, Content.new)).2.lines =
      [] ++ [{ DiffLine.empty with
               spans := DiffLine.empty.spans ++ [⟨['a'], SpanState.added⟩] }] :=
  appendSpans_frame Op.insert ['a'] Content.new Content.new [] DiffLine.empty []
    DiffLine.empty rfl rfl

/-! ## Numbering monotonicity -/

/-- The total number of lines the finalization pass assigns a number to,
started with carry `carry`. -/
def totalAssigned : Bool → List DiffLine → Nat
  | _, [] => 0
  | carry, l :: ls =>
      (if carry then 1 else 0) + totalAssigned (l.showNextLineNumber.getD false) ls

theorem updateLast_forall (P : DiffLine → Prop) (f : DiffLine → DiffLine)
    (hf : ∀ l, P l → P (f l)) :
    ∀ ls : List DiffLine, (∀ l ∈ ls, P l) → ∀ l ∈ updateLast f ls, P l
  | [] => by simp [updateLast]
  | [x] => by
      intro h l hl
      simp only [updateLast, List.mem_singleton] at hl
      subst hl
      exact hf x (h x (by simp))
  | x :: x' :: xs => by
      intro h l hl
      simp only [updateLast, List.mem_cons] at hl
      rcases hl with rfl | hl
      · exact h l (by simp)
      · exact updateLast_forall P f hf (x' :: xs)
          (fun y hy => h y (List.mem_cons_of_mem _ hy)) l (by simpa using hl)

theorem addSpanLast_noNumber (c : Content) (sp : DiffSpan)
    (h : ∀ l ∈ c.lines, l.lineNumber = none) :
    ∀ l ∈ (c.addSpanLast sp).lines, l.lineNumber = none :=
  updateLast_forall (fun l => l.lineNumber = none) (fun l => l.addSpan sp)
    (fun _ hl => hl) c.lines h

theorem addLine_noNumber (c : Content) (b : Bool)
    (h : ∀ l ∈ c.lines, l.lineNumber = none) :
    ∀ l ∈ (c.addLine b).lines, l.lineNumber = none := by
  intro l hl
  simp only [Content.addLine, List.mem_append, List.mem_singleton] at hl
  rcases hl with hl | rfl
  · refine updateLast_forall (fun l => l.lineNumber = none) _ ?_ c.lines h l hl
    intro x hx
    dsimp only
    split <;> simpa using hx
  · rfl

theorem stepSeg_noNumber (op : Op) (t : List Char) {s : Content × Content}
    (h1 : ∀ l ∈ s.1.lines, l.lineNumber = none)
    (h2 : ∀ l ∈ s.2.lines, l.lineNumber = none) :
    (∀ l ∈ (stepSeg op t s).1.lines, l.lineNumber = none) ∧
    (∀ l ∈ (stepSeg op t s).2.lines, l.lineNumber = none) := by
  have ha : (∀ l ∈ (appendSpans op t s).1.lines, l.lineNumber = none) ∧
      (∀ l ∈ (appendSpans op t s).2.lines, l.lineNumber = none) := by
    cases op
    · exact ⟨addSpanLast_noNumber s.1 _ h1, addSpanLast_noNumber s.2 _ h2⟩
    · exact ⟨h1, addSpanLast_noNumber s.2 _ h2⟩
    · exact ⟨addSpanLast_noNumber s.1 _ h1, h2⟩
  by_cases ht : t.getLast? = some '\n'
  · rw [stepSeg_of_newline op t s ht]
    cases op <;>
      exact ⟨addLine_noNumber _ _ ha.1, addLine_noNumber _ _ ha.2⟩
  · rw [stepSeg_of_not_newline op t s ht]
    exact ha

theorem foldlSeg_noNumber (op : Op) (segs : List (List Char)) :
    ∀ {s : Content × Content},
      (∀ l ∈ s.1.lines, l.lineNumber = none) →
      (∀ l ∈ s.2.lines, l.lineNumber = none) →
      (∀ l ∈ (segs.foldl (fun s t => stepSeg op t s) s).1.lines, l.lineNumber = none) ∧
      (∀ l ∈ (segs.foldl (fun s t => stepSeg op t s) s).2.lines, l.lineNumber = none) := by
  induction segs with
  | nil => intro s h1 h2; exact ⟨h1, h2⟩
  | cons t segs ih =>
      intro s h1 h2
      have h := stepSeg_noNumber op t h1 h2
      exact ih h.1 h.2

theorem processOps_noNumber (ops : List (Op × List Char)) :
    (∀ l ∈ (processOps ops).1.lines, l.lineNumber = none) ∧
    (∀ l ∈ (processOps ops).2.lines, l.lineNumber = none) := by
  have step : ∀ (ops' : List (Op × List Char)) (s : Content × Content),
      (∀ l ∈ s.1.lines, l.lineNumber = none) →
      (∀ l ∈ s.2.lines, l.lineNumber = none) →
      (∀ l ∈ (ops'.foldl stepOp s).1.lines, l.lineNumber = none) ∧
      (∀ l ∈ (ops'.foldl stepOp s).2.lines, l.lineNumber = none) := by
    intro ops'
    induction ops' with
    | nil => intro s h1 h2; exact ⟨h1, h2⟩
    | cons d ops' ih =>
        intro s h1 h2
        have h := foldlSeg_noNumber d.1 (splitKeep d.2) h1 h2
        exact ih _ h.1 h.2
  exact step ops (Content.new, Content.new) (by simp [Content.new, DiffLine.empty])
    (by simp [Content.new, DiffLine.empty])

theorem filterMap_numberLines :
    ∀ (ls : List DiffLine) (n : Nat) (carry : Bool),
      (∀ l ∈ ls, l.lineNumber = none) →
      (numberLines n carry ls).filterMap (fun l => l.lineNumber) =
        List.range' n (totalAssigned carry ls) := by
  intro ls
  induction ls with
  | nil => intro n carry _; simp [numberLines, totalAssigned]
  | cons l ls ih =>
      intro n carry h
      have hrest : ∀ x ∈ ls, x.lineNumber = none :=
        fun x hx => h x (List.mem_cons_of_mem _ hx)
      cases carry with
      | true =>
          rw [show numberLines n true (l :: ls) =
              { l with lineNumber := some n } ::
                numberLines (n + 1) (l.showNextLineNumber.getD false) ls from rfl]
          rw [List.filterMap_cons_some (by rfl),
            ih (n + 1) (l.showNextLineNumber.getD false) hrest]
          rw [show totalAssigned true (l :: ls) =
              1 + totalAssigned (l.showNextLineNumber.getD false) ls from rfl]
          rw [Nat.add_comm 1, List.range'_succ]
      | false =>
          rw [show numberLines n false (l :: ls) =
              l :: numberLines n (l.showNextLineNumber.getD false) ls from rfl]
          rw [List.filterMap_cons_none (h l (by simp)),
            ih n (l.showNextLineNumber.getD false) hrest]
          rw [show totalAssigned false (l :: ls) =
              0 + totalAssigned (l.showNextLineNumber.getD false) ls from rfl]
          rw [Nat.zero_add]

theorem numbered_side (c : Content) (hne : c.lines ≠ [])
    (hnn : ∀ l ∈ c.lines, l.lineNumber = none) :
    c.computeLineNumbers.lines.filterMap (fun l => l.lineNumber) =
      List.range' 1
        (c.computeLineNumbers.lines.filterMap (fun l => l.lineNumber)).length ∧
    (c.computeLineNumbers.lines.filterMap (fun l => l.lineNumber)).head? = some 1 := by
  have hfm : c.computeLineNumbers.lines.filterMap (fun l => l.lineNumber) =
      List.range' 1 (totalAssigned true c.lines) :=
    filterMap_numberLines c.lines 1 true hnn
  constructor
  · rw [hfm, List.length_range']
  · rw [hfm]
    cases hc : c.lines with
    | nil => exact absurd hc hne
    | cons l ls =>
        rw [show totalAssigned true (l :: ls) =
            1 + totalAssigned (l.showNextLineNumber.getD false) ls from rfl]
        rw [Nat.add_comm, List.range'_succ]
        rfl

/-- Claim C7: for every operation sequence, within each side the defined
line numbers, read in line order, are exactly `1, 2, 3, ...` — strictly
increasing with no gaps and no repeats — and the first numbered line
carries the number 1. -/
theorem numbering_monotonicity (ops : List (Op × List Char)) :
    ((buildPanes ops).1.lines.filterMap (fun l => l.lineNumber) =
        List.range' 1
          ((buildPanes ops).1.lines.filterMap (fun l => l.lineNumber)).length ∧
      ((buildPanes ops).1.lines.filterMap (fun l => l.lineNumber)).head? = some 1) ∧
    ((buildPanes ops).2.lines.filterMap (fun l => l.lineNumber) =
        List.range' 1
          ((buildPanes ops).2.lines.filterMap (fun l => l.lineNumber)).length ∧
      ((buildPanes ops).2.lines.filterMap (fun l => l.lineNumber)).head? = some 1) :=
  ⟨numbered_side (processOps ops).1 (processOps_ne_nil ops).1 (processOps_noNumber ops).1,
   numbered_side (processOps ops).2 (processOps_ne_nil ops).2 (processOps_noNumber ops).2⟩

/-! ## The pure-insertion scenario -/

/-- Counterexample to claim C9 as stated: on the operation sequence
`[(delete, ""), (insert, "a\nb\n")]` the first line of the left
`Content` is a filler line — its spans are an empty removed span followed
by a spacer span — yet it IS numbered: it receives line number 1, because
the finalization carry starts true.  So it is false that neither of the
two left filler lines is numbered. -/
theorem pure_insertion_counterexample :
    ((buildPanes [(Op.delete, []), (Op.insert, ['a', '\n', 'b', '\n'])]).1.lines.map
        (fun l => (l.spans.map (fun sp => sp.state), l.lineNumber))) =
      [([SpanState.removed, SpanState.spacer], some 1),
       ([SpanState.spacer], none),
       ([], none)] := by
  decide

/-- Claim C9 as amended: the operation sequence
`[(delete, ""), (insert, "a\nb\n")]` yields a right `Content` whose first
two lines are numbered 1 and 2 and contain the added spans `"a\n"` and
`"b\n"`, followed by a trailing empty line numbered 3; and a left
`Content` with two filler (spacer) lines — the first numbered 1 (the
finalization carry starts true), the second unnumbered — followed by an
unnumbered trailing empty line. -/
theorem pure_insertion_amended :
    buildPanes [(Op.delete, []), (Op.insert, ['a', '\n', 'b', '\n'])] =
      (⟨[⟨[⟨[], SpanState.removed⟩, ⟨['\n'], SpanState.spacer⟩], some false, some 1⟩,
         ⟨[⟨['\n'], SpanState.spacer⟩], some false, none⟩,
         ⟨[], none, none⟩]⟩,
       ⟨[⟨[⟨['a', '\n'], SpanState.added⟩], some true, some 1⟩,
         ⟨[⟨['b', '\n'], SpanState.added⟩], some true, some 2⟩,
         ⟨[], none, some 3⟩]⟩) := by
  decide

/-! ## Line contents and splitting a whole text into lines -/

/-- The text of a line: the concatenation of its spans' contents. -/
def lineText (l : DiffLine) : List Char :=
  (l.spans.map (fun sp => sp.content)).flatten

/-- The texts of a side's lines, in order. -/
def sideTexts (c : Content) : List (List Char) :=
  c.lines.map lineText

/-- Prepend a character to the first line of a line list. -/
def consHead (c : Char) : List (List Char) → List (List Char)
  | [] => [[c]]
  | u :: us => (c :: u) :: us

/-- A text split into lines the way the builder accumulates them: each
newline ends its line (and is kept on it) and opens a new line, so a text
ending in a newline has a trailing empty line. -/
def linesOfText : List Char → List (List Char)
  | [] => [[]]
  | c :: rest =>
      if c = '\n' then ['\n'] :: linesOfText rest else consHead c (linesOfText rest)

/-- Append a fragment to the last line of a line list. -/
def extendLast (t : List Char) : List (List Char) → List (List Char)
  | [] => [t]
  | [u] => [u ++ t]
  | u :: u' :: us => u :: extendLast t (u' :: us)

theorem linesOfText_ne_nil : ∀ t : List Char, linesOfText t ≠ []
  | [] => by simp [linesOfText]
  | c :: rest => by
      simp only [linesOfText]
      split
      · simp
      · cases linesOfText rest <;> simp [consHead]

theorem extendLast_ne_nil (t : List Char) : ∀ L, extendLast t L ≠ []
  | [] => by simp [extendLast]
  | [_] => by simp [extendLast]
  | _ :: _ :: _ => by simp [extendLast]

theorem extendLast_cons (t : List Char) (u : List Char) {L : List (List Char)}
    (h : L ≠ []) : extendLast t (u :: L) = u :: extendLast t L := by
  cases L with
  | nil => exact absurd rfl h
  | cons u' us => rfl

theorem consHead_extendLast (c : Char) (t : List Char) :
    ∀ L : List (List Char), L ≠ [] →
      consHead c (extendLast t L) = extendLast t (consHead c L)
  | [], h => absurd rfl h
  | [u], _ => by simp [consHead, extendLast]
  | u :: u' :: us, _ => rfl

theorem consHead_append (c : Char) {L : List (List Char)} (h : L ≠ [])
    (M : List (List Char)) : consHead c (L ++ M) = consHead c L ++ M := by
  cases L with
  | nil => exact absurd rfl h
  | cons u us => rfl

theorem extendLast_extendLast (t1 t2 : List Char) :
    ∀ L : List (List Char), extendLast t2 (extendLast t1 L) = extendLast (t1 ++ t2) L
  | [] => by simp [extendLast]
  | [u] => by simp [extendLast]
  | u :: u' :: us => by
      rw [show extendLast t1 (u :: u' :: us) = u :: extendLast t1 (u' :: us) from rfl,
        extendLast_cons t2 u (extendLast_ne_nil t1 (u' :: us)),
        extendLast_extendLast t1 t2 (u' :: us),
        show extendLast (t1 ++ t2) (u :: u' :: us) =
          u :: extendLast (t1 ++ t2) (u' :: us) from rfl]

theorem linesOfText_no_newline : ∀ {t : List Char}, '\n' ∉ t → linesOfText t = [t]
  | [], _ => rfl
  | c :: rest, h => by
      have hc : ¬c = '\n' := fun hc => h (by simp [hc])
      have hrest : '\n' ∉ rest := fun hm => h (List.mem_cons_of_mem _ hm)
      simp only [linesOfText, hc, if_false, linesOfText_no_newline hrest, consHead]

theorem linesOfText_append_no_newline {t : List Char} (h : '\n' ∉ t) :
    ∀ U : List Char, linesOfText (U ++ t) = extendLast t (linesOfText U)
  | [] => by simp [linesOfText_no_newline h, linesOfText, extendLast]
  | c :: U' => by
      by_cases hc : c = '\n'
      · subst hc
        rw [List.cons_append,
          show linesOfText ('\n' :: (U' ++ t)) = ['\n'] :: linesOfText (U' ++ t) by
            simp [linesOfText],
          linesOfText_append_no_newline h U',
          show linesOfText ('\n' :: U') = ['\n'] :: linesOfText U' by simp [linesOfText],
          extendLast_cons t ['\n'] (linesOfText_ne_nil U')]
      · rw [List.cons_append,
          show linesOfText (c :: (U' ++ t)) = consHead c (linesOfText (U' ++ t)) by
            simp [linesOfText, hc],
          linesOfText_append_no_newline h U',
          consHead_extendLast c t (linesOfText U') (linesOfText_ne_nil U'),
          show linesOfText (c :: U') = consHead c (linesOfText U') by
            simp [linesOfText, hc]]

theorem linesOfText_append_newline :
    ∀ U : List Char, linesOfText (U ++ ['\n']) = extendLast ['\n'] (linesOfText U) ++ [[]]
  | [] => by simp [linesOfText, extendLast]
  | c :: U' => by
      by_cases hc : c = '\n'
      · subst hc
        rw [List.cons_append,
          show linesOfText ('\n' :: (U' ++ ['\n'])) =
            ['\n'] :: linesOfText (U' ++ ['\n']) by simp [linesOfText],
          linesOfText_append_newline U',
          show linesOfText ('\n' :: U') = ['\n'] :: linesOfText U' by simp [linesOfText],
          extendLast_cons ['\n'] ['\n'] (linesOfText_ne_nil U'),
          List.cons_append]
      · rw [List.cons_append,
          show linesOfText (c :: (U' ++ ['\n'])) =
            consHead c (linesOfText (U' ++ ['\n'])) by simp [linesOfText, hc],
          linesOfText_append_newline U',
          consHead_append c (extendLast_ne_nil ['\n'] (linesOfText U')) [[]],
          consHead_extendLast c ['\n'] (linesOfText U') (linesOfText_ne_nil U'),
          show linesOfText (c :: U') = consHead c (linesOfText U') by
            simp [linesOfText, hc]]

theorem lineText_addSpan (l : DiffLine) (sp : DiffSpan) :
    lineText (l.addSpan sp) = lineText l ++ sp.content := by
  simp [lineText, DiffLine.addSpan]

theorem map_lineText_updateLast_addSpan (sp : DiffSpan) :
    ∀ ls : List DiffLine, ls ≠ [] →
      (updateLast (fun l => l.addSpan sp) ls).map lineText =
        extendLast sp.content (ls.map lineText)
  | [], h => absurd rfl h
  | [x], _ => by simp [updateLast, extendLast, lineText_addSpan]
  | x :: x' :: xs, _ => by
      rw [show updateLast (fun l => l.addSpan sp) (x :: x' :: xs) =
          x :: updateLast (fun l => l.addSpan sp) (x' :: xs) from rfl,
        List.map_cons, List.map_cons,
        map_lineText_updateLast_addSpan sp (x' :: xs) (by simp),
        extendLast_cons sp.content (lineText x) (by simp)]

theorem sideTexts_addSpanLast (c : Content) (sp : DiffSpan) (h : c.lines ≠ []) :
    sideTexts (c.addSpanLast sp) = extendLast sp.content (sideTexts c) :=
  map_lineText_updateLast_addSpan sp c.lines h

theorem map_lineText_updateLast_of_spans (f : DiffLine → DiffLine)
    (hf : ∀ l, (f l).spans = l.spans) :
    ∀ ls : List DiffLine, (updateLast f ls).map lineText = ls.map lineText
  | [] => rfl
  | [x] => by simp [updateLast, lineText, hf]
  | x :: x' :: xs => by
      simp only [updateLast, List.map_cons,
        map_lineText_updateLast_of_spans f hf (x' :: xs)]

theorem sideTexts_addLine_true (c : Content) :
    sideTexts (c.addLine true) = sideTexts c ++ [[]] := by
  rcases List.eq_nil_or_concat c.lines with hnil | ⟨pre, l, hp⟩
  · simp [Content.addLine, sideTexts, hnil, updateLast, lineText, DiffLine.empty]
  · rw [List.concat_eq_append] at hp
    rw [sideTexts, sideTexts, addLine_lines_eq true c pre l hp, hp]
    simp [lineText, DiffLine.empty]

theorem map_lineText_numberLines :
    ∀ (ls : List DiffLine) (n : Nat) (carry : Bool),
      (numberLines n carry ls).map lineText = ls.map lineText := by
  intro ls
  induction ls with
  | nil => intro n carry; rfl
  | cons l ls ih =>
      intro n carry
      cases carry <;>
        simp only [numberLines, if_true, if_false, List.map_cons, ih] <;>
        rfl

theorem sideTexts_computeLineNumbers (c : Content) :
    sideTexts c.computeLineNumbers = sideTexts c :=
  map_lineText_numberLines c.lines 1 true

theorem eq_dropLast_append_newline {t : List Char} (h : t.getLast? = some '\n') :
    t = t.dropLast ++ ['\n'] := by
  have hne : t ≠ [] := by
    intro h0
    rw [h0] at h
    simp at h
  have hg : t.getLast hne = '\n' := by
    rw [List.getLast?_eq_getLast t hne] at h
    exact Option.some.inj h
  conv_lhs => rw [← List.dropLast_concat_getLast hne]
  rw [hg]

theorem no_newline_of_wf_not_ends {t : List Char}
    (hwf : ∀ c ∈ t.dropLast, c ≠ '\n') (hend : t.getLast? ≠ some '\n') :
    '\n' ∉ t := by
  intro hmem
  rcases List.eq_nil_or_concat t with hnil | ⟨pre, c, hp⟩
  · rw [hnil] at hmem
    simp at hmem
  · rw [List.concat_eq_append] at hp
    rw [hp] at hmem
    rcases List.mem_append.1 hmem with hm | hm
    · have hpre : t.dropLast = pre := by rw [hp]; simp
      exact hwf '\n' (hpre ▸ hm) rfl
    · have hc : c = '\n' := by
        have := hm
        simp at this
        exact this.symm
      apply hend
      rw [hp, hc]
      simp

theorem c8_stepSeg (t : List Char) (hwf : ∀ c ∈ t.dropLast, c ≠ '\n')
    {s : Content × Content} {U : List Char}
    (heq : s.1 = s.2) (hctx : sideTexts s.1 = linesOfText U) :
    (stepSeg Op.equal t s).1 = (stepSeg Op.equal t s).2 ∧
    sideTexts (stepSeg Op.equal t s).1 = linesOfText (U ++ t) := by
  have hne : s.1.lines ≠ [] := by
    intro h0
    apply linesOfText_ne_nil U
    rw [← hctx]
    simp [sideTexts, h0]
  by_cases ht : t.getLast? = some '\n'
  · rw [stepSeg_of_newline _ _ _ ht]
    constructor
    · show ((appendSpans Op.equal t s).1.addLine true, (appendSpans Op.equal t s).2.addLine true).1 =
        ((appendSpans Op.equal t s).1.addLine true, (appendSpans Op.equal t s).2.addLine true).2
      show (s.1.addSpanLast ⟨t, SpanState.unchanged⟩).addLine true =
        (s.2.addSpanLast ⟨t, SpanState.unchanged⟩).addLine true
      rw [heq]
    · show sideTexts ((s.1.addSpanLast ⟨t, SpanState.unchanged⟩).addLine true) =
        linesOfText (U ++ t)
      rw [sideTexts_addLine_true, sideTexts_addSpanLast s.1 _ hne, hctx]
      have hwf' : '\n' ∉ t.dropLast := fun hm => hwf '\n' hm rfl
      conv_rhs => rw [eq_dropLast_append_newline ht, ← List.append_assoc,
        linesOfText_append_newline (U ++ t.dropLast),
        linesOfText_append_no_newline hwf' U]
      rw [extendLast_extendLast]
      conv_lhs => rw [eq_dropLast_append_newline ht]
  · rw [stepSeg_of_not_newline _ _ _ ht]
    constructor
    · show s.1.addSpanLast ⟨t, SpanState.unchanged⟩ = s.2.addSpanLast ⟨t, SpanState.unchanged⟩
      rw [heq]
    · show sideTexts (s.1.addSpanLast ⟨t, SpanState.unchanged⟩) = linesOfText (U ++ t)
      rw [sideTexts_addSpanLast s.1 _ hne, hctx,
        linesOfText_append_no_newline (no_newline_of_wf_not_ends hwf ht) U]

theorem c8_foldSegs :
    ∀ (segs : List (List Char)), (∀ seg ∈ segs, ∀ c ∈ seg.dropLast, c ≠ '\n') →
      ∀ {s : Content × Content} {U : List Char},
        s.1 = s.2 → sideTexts s.1 = linesOfText U →
        (segs.foldl (fun s t => stepSeg Op.equal t s) s).1 =
          (segs.foldl (fun s t => stepSeg Op.equal t s) s).2 ∧
        sideTexts (segs.foldl (fun s t => stepSeg Op.equal t s) s).1 =
          linesOfText (U ++ segs.flatten) := by
  intro segs
  induction segs with
  | nil =>
      intro _ s U heq hctx
      exact ⟨heq, by simpa using hctx⟩
  | cons t segs ih =>
      intro hwf s U heq hctx
      have hstep := c8_stepSeg t (hwf t (by simp)) heq hctx
      have := ih (fun seg hseg => hwf seg (List.mem_cons_of_mem _ hseg))
        hstep.1 hstep.2
      simpa [List.append_assoc] using this

theorem c8_foldOps :
    ∀ (texts : List (List Char)) {s : Content × Content} {U : List Char},
      s.1 = s.2 → sideTexts s.1 = linesOfText U →
      ((texts.map (fun t => (Op.equal, t))).foldl stepOp s).1 =
        ((texts.map (fun t => (Op.equal, t))).foldl stepOp s).2 ∧
      sideTexts ((texts.map (fun t => (Op.equal, t))).foldl stepOp s).1 =
        linesOfText (U ++ texts.flatten) := by
  intro texts
  induction texts with
  | nil =>
      intro s U heq hctx
      exact ⟨heq, by simpa using hctx⟩
  | cons t texts ih =>
      intro s U heq hctx
      have hstep := c8_foldSegs (splitKeep t) (splitKeep_no_inner_newline t) heq hctx
      rw [splitKeep_join t] at hstep
      have := ih hstep.1 hstep.2
      simpa [stepOp, List.append_assoc] using this

/-- Claim C8: an all-`equal` operation sequence whose texts concatenate to
`T` produces two sides that are completely identical (same spans, states
and line numbers), and their lines' texts are exactly `T` split into
lines. -/
theorem all_equal_identical (texts : List (List Char)) :
    (buildPanes (texts.map (fun t => (Op.equal, t)))).1 =
      (buildPanes (texts.map (fun t => (Op.equal, t)))).2 ∧
    sideTexts (buildPanes (texts.map (fun t => (Op.equal, t)))).1 =
      linesOfText texts.flatten := by
  have h := c8_foldOps texts (s := (Content.new, Content.new)) (U := []) rfl
    (by simp [sideTexts, Content.new, lineText, DiffLine.empty, linesOfText])
  constructor
  · show ((texts.map (fun t => (Op.equal, t))).foldl stepOp
        (Content.new, Content.new)).1.computeLineNumbers =
      ((texts.map (fun t => (Op.equal, t))).foldl stepOp
        (Content.new, Content.new)).2.computeLineNumbers
    rw [h.1]
  · show sideTexts ((texts.map (fun t => (Op.equal, t))).foldl stepOp
        (Content.new, Content.new)).1.computeLineNumbers =
      linesOfText texts.flatten
    rw [sideTexts_computeLineNumbers]
    simpa using h.2

end Txtl
